import Mathlib

/-!
Verification of the bqskit core against its specification.

This file shallowly embeds the Python sources under `src/bqskit` into Lean:

* `bqskit/ir/gates/composed/frozenparam.py` (`FrozenParameterGate`)
* `bqskit/ir/gates/composed/varloc.py` (`VariableLocationGate`)
* `bqskit/ir/gates/parameterized/u2.py` (`U2Gate`)
* `bqskit/qis/state/state.py` (`StateVector`)
* `bqskit/utils/singleton.py` (`Singleton`)

Python floats are modelled as exact numbers (`ℚ` where only bookkeeping is at
stake, `ℝ`/`ℂ` where transcendental functions and derivatives are involved);
Python exceptions are modelled by `Except PyError`.  Helper code of the
repository that is not part of the provided sources (the `softmax` utility,
`PermutationMatrix.from_qubit_location`, `UnitaryMatrix.closest_to`,
`Unitary.check_parameters`, `is_valid_location`) is modelled from the
specification's words; each such definition is marked in its doc comment.
-/

/-- Kinds of Python exceptions raised by the embedded code.  `typeError`
models Python's `TypeError`, `valueError` models `ValueError`, and
`parameterMismatch` models the spec's ParameterMismatch kind (a parameter
vector length disagreeing with the declared parameter count). -/
inductive PyError where
  | typeError
  | valueError
  | parameterMismatch
  deriving DecidableEq, Repr

/-! ## FrozenParameterGate (src/bqskit/ir/gates/composed/frozenparam.py) -/

namespace FrozenParameterGate

/-- Python's `list.insert(i, v)` for a non-negative index `i`: the value is
placed before position `i`; an index beyond the end appends. -/
def pyInsert (xs : List α) (i : Nat) (v : α) : List α :=
  xs.take i ++ v :: xs.drop i

/-- Insert a single key/value pair into a list sorted by ascending key,
keeping it sorted.  Helper for `sortByKey`. -/
def insertByKey (p : Nat × α) : List (Nat × α) → List (Nat × α)
  | [] => [p]
  | q :: qs => if p.1 ≤ q.1 then p :: q :: qs else q :: insertByKey p qs

/-- Python's `sorted(...)` over the fixed-parameter dictionary: the key/value
pairs listed in ascending key order (keys of a dict are distinct, so
stability is irrelevant). -/
def sortByKey : List (Nat × α) → List (Nat × α)
  | [] => []
  | p :: ps => insertByKey p (sortByKey ps)

/-- The loop body of `get_full_params`: insert every fixed value at its key,
in the order the keys are listed. -/
def insertFixed (fixed : List (Nat × α)) (params : List α) : List α :=
  fixed.foldl (fun args p => pyInsert args p.1 p.2) params

/-- Source `FrozenParameterGate.get_full_params`: after the
`check_parameters` length check (modelled from the spec: a length mismatch
fails with a ParameterMismatch), start from the caller's free-parameter
vector and insert each fixed value at its original index in ascending key
order.  `n` is the wrapped subgate's parameter count; the wrapper's
`num_params` is `n - fixed.length` as set by `__init__`. -/
def get_full_params (n : Nat) (fixed : List (Nat × α)) (params : List α) :
    Except PyError (List α) :=
  if params.length = n - fixed.length then
    .ok (insertFixed (sortByKey fixed) params)
  else
    .error .parameterMismatch

/-- Source `unfixed_param_idxs`: the parameter indices of the subgate that
are not keys of the fixed map, in ascending order. -/
def unfixedIdxs (n : Nat) (keys : List Nat) : List Nat :=
  (List.range n).filter (fun i => decide (i ∉ keys))

/-- Numpy integer-array indexing `xs[idxs]`: the entries of `xs` at the
listed positions, in the listed order (all positions are in bounds where
this is used). -/
def selectIdxs (xs : List α) (idxs : List Nat) : List α :=
  idxs.filterMap (fun i => xs[i]?)

end FrozenParameterGate

namespace FrozenParameterGate

theorem pyInsert_length (xs : List α) (i : Nat) (v : α) :
    (pyInsert xs i v).length = xs.length + 1 := by
  simp only [pyInsert, List.length_append, List.length_take, List.length_cons,
    List.length_drop]
  omega

theorem pyInsert_shift (pre xs : List α) (k : Nat) (v : α)
    (h : pre.length ≤ k) :
    pyInsert (pre ++ xs) k v = pre ++ pyInsert xs (k - pre.length) v := by
  simp only [pyInsert, List.take_append_eq_append_take,
    List.drop_append_eq_append_drop, List.take_of_length_le h,
    List.drop_of_length_le h, List.nil_append, List.append_assoc]

theorem insertFixed_shift (fixed : List (Nat × α)) (pre suf : List α)
    (h : ∀ p ∈ fixed, pre.length ≤ p.1) :
    insertFixed fixed (pre ++ suf) =
      pre ++ insertFixed (fixed.map (fun p => (p.1 - pre.length, p.2))) suf := by
  induction fixed generalizing suf with
  | nil => simp [insertFixed]
  | cons p rest ih =>
      simp only [insertFixed, List.foldl_cons, List.map_cons]
      rw [pyInsert_shift pre suf p.1 p.2 (h p (List.mem_cons_self p rest))]
      exact ih (pyInsert suf (p.1 - pre.length) p.2)
        (fun q hq => h q (List.mem_cons_of_mem p hq))

theorem selectIdxs_range (xs : List α) (m : Nat) (h : m ≤ xs.length) :
    selectIdxs xs (List.range m) = xs.take m := by
  induction m with
  | zero => simp [selectIdxs]
  | succ k ih =>
      rw [List.range_succ, selectIdxs, List.filterMap_append,
        ← selectIdxs, ih (Nat.le_of_succ_le h), List.take_succ]
      simp only [selectIdxs, List.filterMap_cons, List.filterMap_nil]
      have hk : k < xs.length := h
      simp [List.getElem?_eq_getElem hk]

theorem selectIdxs_shift (pre xs : List α) (idxs : List Nat) :
    selectIdxs (pre ++ xs) (idxs.map (pre.length + ·)) = selectIdxs xs idxs := by
  simp only [selectIdxs, List.filterMap_map]
  congr 1
  funext i
  simp [List.getElem?_append_right (Nat.le_add_right pre.length i)]

theorem selectIdxs_append (xs : List α) (idxs idxs' : List Nat) :
    selectIdxs xs (idxs ++ idxs') = selectIdxs xs idxs ++ selectIdxs xs idxs' := by
  simp [selectIdxs]

theorem selectIdxs_length (xs : List α) (idxs : List Nat)
    (h : ∀ i ∈ idxs, i < xs.length) :
    (selectIdxs xs idxs).length = idxs.length := by
  induction idxs with
  | nil => rfl
  | cons i t ih =>
      have hi : i < xs.length := h i (List.mem_cons_self i t)
      simp only [selectIdxs, List.filterMap_cons, List.getElem?_eq_getElem hi,
        List.length_cons]
      rw [← selectIdxs, ih (fun j hj => h j (List.mem_cons_of_mem i hj))]

/-- A strictly ascending list of naturals that are all below `n` and starts
at `k` has at most `n - k` elements. -/
theorem sorted_head_length_bound (k : Nat) (l : List Nat) (n : Nat)
    (hp : List.Pairwise (· < ·) (k :: l)) (hb : ∀ x ∈ k :: l, x < n) :
    k + (k :: l).length ≤ n := by
  induction l generalizing k with
  | nil =>
      have := hb k (List.mem_cons_self k [])
      simp only [List.length_cons, List.length_nil]
      omega
  | cons k' t ih =>
      have hkk' : k < k' := (List.pairwise_cons.mp hp).1 k' (List.mem_cons_self k' t)
      have hp' : List.Pairwise (· < ·) (k' :: t) := (List.pairwise_cons.mp hp).2
      have hb' : ∀ x ∈ k' :: t, x < n := fun x hx => hb x (List.mem_cons_of_mem k hx)
      have := ih k' hp' hb'
      simp only [List.length_cons] at *
      omega

/-- Splitting the unfixed-index list at the least fixed key. -/
theorem unfixedIdxs_cons (n k : Nat) (rest : List Nat)
    (hk : k < n)
    (hr : ∀ x ∈ rest, k < x) :
    unfixedIdxs n (k :: rest) =
      List.range k ++
        (unfixedIdxs (n - (k + 1)) (rest.map (· - (k + 1)))).map ((k + 1) + ·) := by
  have hsplit : n = (k + 1) + (n - (k + 1)) := by omega
  rw [unfixedIdxs, hsplit, List.range_add, List.filter_append]
  congr 1
  · -- indices below `k + 1`: exactly `range k` survives the filter
    rw [List.range_succ, List.filter_append]
    have h1 : (List.range k).filter (fun i => decide (i ∉ k :: rest)) =
        List.range k := by
      rw [List.filter_eq_self]
      intro a ha
      have halt : a < k := List.mem_range.mp ha
      simp only [decide_eq_true_eq, List.mem_cons, not_or]
      exact ⟨by omega, fun hmem => by have := hr a hmem; omega⟩
    have h2 : ([k].filter (fun i => decide (i ∉ k :: rest))) = [] := by
      simp
    rw [h1, h2, List.append_nil]
  · -- indices at least `k + 1`, shifted down and back up
    rw [List.filter_map]
    have harg : k + 1 + (n - (k + 1)) - (k + 1) = n - (k + 1) := by omega
    rw [unfixedIdxs, harg]
    congr 1
    apply List.filter_congr
    intro i _
    simp only [Function.comp_apply, decide_eq_decide, List.mem_cons, not_or,
      List.mem_map]
    constructor
    · intro ⟨_, h2⟩ hmem
      obtain ⟨x, hx, hxi⟩ := hmem
      have hxk : k < x := hr x hx
      have : x = k + 1 + i := by omega
      exact h2 (this ▸ hx)
    · intro hQ
      refine ⟨by omega, fun hmem => hQ ⟨k + 1 + i, hmem, by omega⟩⟩

theorem sortByKey_eq_self (fixed : List (Nat × α))
    (hsort : List.Pairwise (fun p q => p.1 < q.1) fixed) :
    sortByKey fixed = fixed := by
  induction fixed with
  | nil => rfl
  | cons p ps ih =>
      have hps := (List.pairwise_cons.mp hsort).2
      rw [sortByKey, ih hps]
      cases ps with
      | nil => rfl
      | cons q qs =>
          have hpq : p.1 < q.1 :=
            (List.pairwise_cons.mp hsort).1 q (List.mem_cons_self q qs)
          simp [insertByKey, Nat.le_of_lt hpq]

theorem insertFixed_spec_nil (n : Nat) (free : List α)
    (hlen : free.length = n) :
    (insertFixed ([] : List (Nat × α)) free).length = n ∧
    (∀ p ∈ ([] : List (Nat × α)),
      (insertFixed ([] : List (Nat × α)) free)[p.1]? = some p.2) ∧
    selectIdxs (insertFixed ([] : List (Nat × α)) free)
      (unfixedIdxs n (([] : List (Nat × α)).map Prod.fst)) = free := by
  refine ⟨by simpa [insertFixed] using hlen, by simp, ?_⟩
  simp only [insertFixed, List.foldl_nil, List.map_nil, unfixedIdxs]
  have hfil : (List.range n).filter (fun i => decide (i ∉ ([] : List Nat))) =
      List.range n := by
    rw [List.filter_eq_self]; simp
  rw [hfil, selectIdxs_range free n (le_of_eq hlen.symm)]
  exact List.take_of_length_le (le_of_eq hlen)

theorem insertFixed_spec_aux (N : Nat) :
    ∀ (fixed : List (Nat × α)) (n : Nat) (free : List α),
    fixed.length ≤ N →
    List.Pairwise (fun p q => p.1 < q.1) fixed →
    (∀ p ∈ fixed, p.1 < n) →
    free.length = n - fixed.length →
    (insertFixed fixed free).length = n ∧
    (∀ p ∈ fixed, (insertFixed fixed free)[p.1]? = some p.2) ∧
    selectIdxs (insertFixed fixed free) (unfixedIdxs n (fixed.map Prod.fst)) =
      free := by
  induction N with
  | zero =>
      intro fixed n free hN _ _ hlen
      have : fixed = [] := List.eq_nil_of_length_eq_zero (Nat.le_zero.mp hN)
      subst this
      exact insertFixed_spec_nil n free (by simpa using hlen)
  | succ N ihN =>
      intro fixed n free hN hsort hlt hlen
      match fixed with
      | [] => exact insertFixed_spec_nil n free (by simpa using hlen)
      | (k, v) :: rest =>
        have hk : k < n := hlt (k, v) (List.mem_cons_self _ _)
        have hrest_gt : ∀ p ∈ rest, k < p.1 := fun p hp =>
          (List.pairwise_cons.mp hsort).1 p hp
        have hsort_rest := (List.pairwise_cons.mp hsort).2
        -- the keys, as a strictly ascending list below n, bound the length
        have hkeys : List.Pairwise (· < ·) (k :: rest.map Prod.fst) := by
          have h0 : List.Pairwise (· < ·) (((k, v) :: rest).map Prod.fst) :=
            List.Pairwise.map Prod.fst (fun a b h => h) hsort
          simpa using h0
        have hkeyslt : ∀ x ∈ k :: rest.map Prod.fst, x < n := by
          intro x hx
          rcases List.mem_cons.mp hx with h | h
          · omega
          · obtain ⟨p, hp, rfl⟩ := List.mem_map.mp h
            exact hlt p (List.mem_cons_of_mem _ hp)
        have hbound : k + (1 + rest.length) ≤ n := by
          have hb := sorted_head_length_bound k (rest.map Prod.fst) n hkeys hkeyslt
          simp only [List.length_cons, List.length_map] at hb
          omega
        have hkfree : k ≤ free.length := by
          simp only [List.length_cons] at hlen
          omega
        have htk_len : (free.take k).length = k := by
          simp [List.length_take, Nat.min_eq_left hkfree]
        set pre := free.take k ++ [v] with hpre
        have hpre_len : pre.length = k + 1 := by
          simp [hpre, htk_len]
        set rest' := rest.map (fun p => (p.1 - (k + 1), p.2)) with hrest'
        set suf := free.drop k with hsuf
        -- decompose the first insertion
        have hstep : insertFixed ((k, v) :: rest) free =
            pre ++ insertFixed rest' suf := by
          show insertFixed rest (pyInsert free k v) = _
          have hins : pyInsert free k v = pre ++ suf := by
            simp [pyInsert, hpre, hsuf]
          rw [hins, insertFixed_shift rest pre suf
            (fun p hp => by rw [hpre_len]; exact hrest_gt p hp), hpre_len,
            ← hrest']
        -- apply the induction hypothesis to the keys shifted below the head
        have hsort' : List.Pairwise (fun p q => p.1 < q.1) rest' := by
          rw [hrest', List.pairwise_map]
          refine List.Pairwise.imp_of_mem ?_ hsort_rest
          intro a b ha _ hab
          have := hrest_gt a ha
          simp only
          omega
        have hlt' : ∀ p ∈ rest', p.1 < n - (k + 1) := by
          intro p hp
          rw [hrest'] at hp
          obtain ⟨q, hq, rfl⟩ := List.mem_map.mp hp
          have h1 := hrest_gt q hq
          have h2 := hlt q (List.mem_cons_of_mem _ hq)
          simp only
          omega
        have hlen' : suf.length = (n - (k + 1)) - rest'.length := by
          rw [hrest', hsuf, List.length_map, List.length_drop]
          simp only [List.length_cons] at hlen
          omega
        have hN' : rest'.length ≤ N := by
          rw [hrest', List.length_map]
          simp only [List.length_cons] at hN
          omega
        obtain ⟨ihlen, ihget, ihsel⟩ :=
          ihN rest' (n - (k + 1)) suf hN' hsort' hlt' hlen'
        set R := insertFixed rest' suf with hR
        rw [hstep]
        refine ⟨?_, ?_, ?_⟩
        · -- length
          rw [List.length_append, hpre_len, ihlen]
          omega
        · -- every fixed value sits at its key
          intro p hp
          rcases List.mem_cons.mp hp with h | h
          · subst h
            rw [List.getElem?_append_left (by rw [hpre_len]; omega)]
            rw [hpre, List.getElem?_append_right htk_len.le, htk_len]
            simp
          · have hge : pre.length ≤ p.1 := by
              rw [hpre_len]; exact hrest_gt p h
            rw [List.getElem?_append_right hge, hpre_len]
            have hmem' : (p.1 - (k + 1), p.2) ∈ rest' := by
              rw [hrest']
              exact List.mem_map_of_mem (fun p => (p.1 - (k + 1), p.2)) h
            exact ihget _ hmem'
        · -- the free values fill the unfixed positions in order
          have hrk : ∀ x ∈ rest.map Prod.fst, k < x := by
            intro x hx
            obtain ⟨p, hp, rfl⟩ := List.mem_map.mp hx
            exact hrest_gt p hp
          rw [List.map_cons, unfixedIdxs_cons n k (rest.map Prod.fst) hk hrk,
            selectIdxs_append]
          have hkeys_eq : (rest.map Prod.fst).map (· - (k + 1)) =
              rest'.map Prod.fst := by
            rw [hrest', List.map_map, List.map_map]
            rfl
          have hpiece1 : selectIdxs (pre ++ R) (List.range k) = free.take k := by
            rw [selectIdxs_range (pre ++ R) k
              (by rw [List.length_append, hpre_len]; omega)]
            rw [List.take_append_eq_append_take, hpre_len,
              Nat.sub_eq_zero_of_le (by omega), List.take_zero,
              List.append_nil, hpre, List.take_append_eq_append_take,
              htk_len, Nat.sub_self, List.take_zero, List.append_nil,
              List.take_of_length_le (le_of_eq htk_len)]
          have hpiece2 : selectIdxs (pre ++ R)
              ((unfixedIdxs (n - (k + 1)) ((rest.map Prod.fst).map (· - (k + 1)))).map
                ((k + 1) + ·)) = suf := by
            have hsh := selectIdxs_shift pre R
              (unfixedIdxs (n - (k + 1)) (rest'.map Prod.fst))
            rw [hpre_len] at hsh
            rw [hkeys_eq, hsh, ihsel]
          rw [hpiece1, hpiece2, hsuf, List.take_append_drop]

/-- The heart of claim C1: folding the ascending-key insertions produces a
vector of the subgate's full length in which every fixed value sits at its
key and the free values occupy the unfixed positions in order. -/
theorem insertFixed_spec (fixed : List (Nat × α)) (n : Nat) (free : List α)
    (hsort : List.Pairwise (fun p q => p.1 < q.1) fixed)
    (hlt : ∀ p ∈ fixed, p.1 < n)
    (hlen : free.length = n - fixed.length) :
    (insertFixed fixed free).length = n ∧
    (∀ p ∈ fixed, (insertFixed fixed free)[p.1]? = some p.2) ∧
    selectIdxs (insertFixed fixed free) (unfixedIdxs n (fixed.map Prod.fst)) =
      free :=
  insertFixed_spec_aux fixed.length fixed n free le_rfl hsort hlt hlen

theorem unfixedIdxs_length (n : Nat) (keys : List Nat)
    (hnd : keys.Nodup) (hlt : ∀ x ∈ keys, x < n) :
    (unfixedIdxs n keys).length = n - keys.length := by
  have hsplit := List.length_eq_length_filter_add
    (l := List.range n) (fun i => decide (i ∈ keys))
  have hneg : (List.range n).filter (fun i => !decide (i ∈ keys)) =
      unfixedIdxs n keys := by
    rw [unfixedIdxs]
    congr 1
    funext i
    simp [decide_not]
  have hperm : List.Perm ((List.range n).filter (fun i => decide (i ∈ keys))) keys := by
    rw [List.perm_ext_iff_of_nodup
      (List.Nodup.filter _ (List.nodup_range n)) hnd]
    intro a
    simp only [List.mem_filter, List.mem_range, decide_eq_true_eq]
    exact ⟨fun h => h.2, fun h => ⟨hlt a h, h⟩⟩
  rw [hneg, hperm.length_eq, List.length_range] at hsplit
  omega

theorem unfixedIdxs_lt (n : Nat) (keys : List Nat) :
    ∀ i ∈ unfixedIdxs n keys, i < n := by
  intro i hi
  have := (List.mem_filter.mp hi).1
  exact List.mem_range.mp this

end FrozenParameterGate

/-- The part of the gate capability contract that `FrozenParameterGate`
consumes from its subgate: a parameter count and a gradient evaluation
returning one derivative matrix per parameter.  Parameter values have type
`α` and derivative matrices are kept abstract as type `β`. -/
structure PyGate (α β : Type) where
  num_params : Nat
  get_grad : List α → List β

namespace FrozenParameterGate

/-- The fields of a constructed `FrozenParameterGate` that the claims
inspect, as set at the end of `__init__`. -/
structure FPG (α β : Type) where
  gate : PyGate α β
  num_params : Nat
  fixed_params : List (Nat × α)
  unfixed_param_idxs : List Nat

/-- Source `FrozenParameterGate.__init__`: after the type checks (which the
typed embedding makes vacuous), raise `ValueError` when the fixed map is
larger than the subgate's parameter count or when any key is out of range;
otherwise record `num_params = subgate.num_params - len(fixed_params)` and
the ascending list of unfixed parameter indices. -/
def init (gate : PyGate α β) (fixed : List (Nat × α)) :
    Except PyError (FPG α β) :=
  if fixed.length ≤ gate.num_params then
    if fixed.all (fun p => decide (p.1 < gate.num_params)) then
      .ok
        { gate := gate
          num_params := gate.num_params - fixed.length
          fixed_params := fixed
          unfixed_param_idxs := unfixedIdxs gate.num_params (fixed.map Prod.fst) }
    else .error .valueError
  else .error .valueError

/-- Source `FrozenParameterGate.get_grad`: evaluate the subgate's gradient at
the reconstructed full parameter vector, then keep only the derivative rows
at the unfixed indices (numpy indexing `grads[self.unfixed_param_idxs]`). -/
def get_grad (g : FPG α β) (params : List α) : Except PyError (List β) :=
  (get_full_params g.gate.num_params g.fixed_params params).map
    (fun full => selectIdxs (g.gate.get_grad full) g.unfixed_param_idxs)

end FrozenParameterGate

/-- C1: for a `FrozenParameterGate` over a subgate with `n` parameters and a
fixed map of size `f` (keys listed in ascending order, as a Python dict
determines a set of keys), `get_full_params` on any free vector of length
`n - f` succeeds and returns a vector of length `n` whose entry at every
fixed key is the fixed value and whose entries at the unfixed indices, read
in ascending position order, are exactly the free values in their given
order; in particular for a 3-parameter subgate fixing index 1 to 0.5,
`get_full_params [a, b] = [a, 0.5, b]`. -/
theorem frozenparam_get_full_params_c1
    (n : Nat) (fixed : List (Nat × ℚ)) (free : List ℚ)
    (hsort : List.Pairwise (fun p q => p.1 < q.1) fixed)
    (hlt : ∀ p ∈ fixed, p.1 < n)
    (hlen : free.length = n - fixed.length) :
    FrozenParameterGate.get_full_params n fixed free =
        Except.ok (FrozenParameterGate.insertFixed fixed free) ∧
    (FrozenParameterGate.insertFixed fixed free).length = n ∧
    (∀ p ∈ fixed,
      (FrozenParameterGate.insertFixed fixed free)[p.1]? = some p.2) ∧
    FrozenParameterGate.selectIdxs (FrozenParameterGate.insertFixed fixed free)
      (FrozenParameterGate.unfixedIdxs n (fixed.map Prod.fst)) = free ∧
    (∀ a b : ℚ, FrozenParameterGate.get_full_params 3 [(1, 1/2)] [a, b] =
      Except.ok [a, 1/2, b]) := by
  obtain ⟨h1, h2, h3⟩ :=
    FrozenParameterGate.insertFixed_spec fixed n free hsort hlt hlen
  refine ⟨?_, h1, h2, h3, ?_⟩
  · rw [FrozenParameterGate.get_full_params, if_pos hlen,
      FrozenParameterGate.sortByKey_eq_self fixed hsort]
  · intro a b
    show FrozenParameterGate.get_full_params 3 [(1, 1/2)] [a, b] = _
    rw [FrozenParameterGate.get_full_params, if_pos (by simp)]
    rfl

/-- Witness for C1 at the concrete instance of the claim: a 3-parameter
subgate with index 1 frozen to 0.5, applied to the free vector `[4, 7]`. -/
theorem frozenparam_get_full_params_c1_witness :
    FrozenParameterGate.get_full_params 3 [(1, (1 : ℚ)/2)] [(4 : ℚ), 7] =
      Except.ok [4, 1/2, 7] := by
  have h := frozenparam_get_full_params_c1 3 [(1, (1 : ℚ)/2)] [(4 : ℚ), 7]
    (by simp) (by simp) (by simp)
  exact h.2.2.2.2 4 7

theorem FrozenParameterGate.init_ok {α β : Type} (gate : PyGate α β)
    (fixed : List (Nat × α)) (g : FrozenParameterGate.FPG α β)
    (h : FrozenParameterGate.init gate fixed = Except.ok g) :
    g.gate = gate ∧
    g.num_params = gate.num_params - fixed.length ∧
    g.fixed_params = fixed ∧
    g.unfixed_param_idxs =
      FrozenParameterGate.unfixedIdxs gate.num_params (fixed.map Prod.fst) ∧
    fixed.length ≤ gate.num_params ∧
    (∀ p ∈ fixed, p.1 < gate.num_params) := by
  rw [FrozenParameterGate.init] at h
  split_ifs at h with h1 h2
  · injection h with h'
    rw [← h']
    refine ⟨rfl, rfl, rfl, rfl, h1, ?_⟩
    intro p hp
    have := List.all_eq_true.mp h2 p hp
    simpa using this

/-- C4: for a `FrozenParameterGate` wrapping a subgate with `n` parameters
and a fixed map of size `f` (keys ascending, all in range, as construction
validates), `num_params` equals `n - f`, and `get_grad` on a free vector of
length `n - f` returns exactly the derivative rows of the subgate's gradient
at the unfixed indices in their original relative order — `n - f` rows,
assuming the subgate honours the contract of one derivative matrix per
parameter. -/
theorem frozenparam_num_params_get_grad_c4 {β : Type}
    (gate : PyGate ℚ β) (fixed : List (Nat × ℚ)) (free : List ℚ)
    (g : FrozenParameterGate.FPG ℚ β)
    (hinit : FrozenParameterGate.init gate fixed = Except.ok g)
    (hsort : List.Pairwise (fun p q => p.1 < q.1) fixed)
    (hlen : free.length = gate.num_params - fixed.length)
    (hcontract : ∀ ps : List ℚ, (gate.get_grad ps).length = gate.num_params) :
    g.num_params = gate.num_params - fixed.length ∧
    FrozenParameterGate.get_grad g free =
      Except.ok (FrozenParameterGate.selectIdxs
        (gate.get_grad (FrozenParameterGate.insertFixed fixed free))
        (FrozenParameterGate.unfixedIdxs gate.num_params (fixed.map Prod.fst))) ∧
    (∀ rows, FrozenParameterGate.get_grad g free = Except.ok rows →
      rows.length = gate.num_params - fixed.length) := by
  obtain ⟨hgate, hnum, hfix, hunfix, hle, hbound⟩ :=
    FrozenParameterGate.init_ok gate fixed g hinit
  have hkeys_nodup : (fixed.map Prod.fst).Nodup := by
    have : List.Pairwise (· < ·) (fixed.map Prod.fst) :=
      List.Pairwise.map Prod.fst (fun a b h => h) hsort
    exact this.nodup
  have hkeys_lt : ∀ x ∈ fixed.map Prod.fst, x < gate.num_params := by
    intro x hx
    obtain ⟨p, hp, rfl⟩ := List.mem_map.mp hx
    exact hbound p hp
  have hgg : FrozenParameterGate.get_grad g free =
      Except.ok (FrozenParameterGate.selectIdxs
        (gate.get_grad (FrozenParameterGate.insertFixed fixed free))
        (FrozenParameterGate.unfixedIdxs gate.num_params (fixed.map Prod.fst))) := by
    rw [FrozenParameterGate.get_grad, hgate, hfix, hunfix,
      FrozenParameterGate.get_full_params, if_pos hlen,
      FrozenParameterGate.sortByKey_eq_self fixed hsort]
    rfl
  refine ⟨hnum, hgg, ?_⟩
  intro rows hrows
  rw [hgg] at hrows
  injection hrows with hrows
  rw [← hrows, FrozenParameterGate.selectIdxs_length,
    FrozenParameterGate.unfixedIdxs_length _ _ hkeys_nodup hkeys_lt,
    List.length_map]
  intro i hi
  rw [hcontract]
  exact FrozenParameterGate.unfixedIdxs_lt _ _ i hi

/-- Witness for C4: a 3-parameter subgate whose gradient is the constant
list `[10, 20, 30]`, with index 1 frozen to 0.5; the wrapper reports 2
parameters and `get_grad [4, 7]` keeps rows 0 and 2. -/
theorem frozenparam_num_params_get_grad_c4_witness :
    ∃ g : FrozenParameterGate.FPG ℚ ℕ,
      FrozenParameterGate.init ⟨3, fun _ => [10, 20, 30]⟩ [(1, (1 : ℚ)/2)] =
        Except.ok g ∧
      g.num_params = 2 ∧
      FrozenParameterGate.get_grad g [(4 : ℚ), 7] = Except.ok [10, 30] := by
  refine ⟨⟨⟨3, fun _ => [10, 20, 30]⟩, 2, [(1, (1 : ℚ)/2)],
    FrozenParameterGate.unfixedIdxs 3 [1]⟩, ?_, ?_, ?_⟩
  · rw [FrozenParameterGate.init, if_pos (by simp), if_pos (by simp)]
    rfl
  · rfl
  · have h := frozenparam_num_params_get_grad_c4
      ⟨3, fun _ => [10, 20, 30]⟩ [(1, (1 : ℚ)/2)] [(4 : ℚ), 7]
      ⟨⟨3, fun _ => [10, 20, 30]⟩, 2, [(1, (1 : ℚ)/2)],
        FrozenParameterGate.unfixedIdxs 3 [1]⟩
      (by rw [FrozenParameterGate.init, if_pos (by simp), if_pos (by simp)]; rfl)
      (by simp) (by simp) (fun _ => rfl)
    rw [h.2.1]
    rfl

/-! ## StateVector (src/bqskit/qis/state/state.py) -/

namespace StateVector

/-- Squared magnitude of a complex entry, the entry being modelled with
exact rational real and imaginary parts in place of `np.complex128`. -/
def normSq (z : ℚ × ℚ) : ℚ := z.1 * z.1 + z.2 * z.2

/-- Source `StateVector.is_pure_state` evaluated on a 1-D numeric vector
(the `isinstance(V, StateVector)` and `is_vector` probes are vacuous for
this input type): `np.allclose(np.sum(np.square(np.abs(V))), 1, rtol=0,
atol=tol)` with the default `tol = 1e-8`, which is `|Σ|vᵢ|² - 1| ≤ tol`. -/
def is_pure_state (v : List (ℚ × ℚ)) : Bool :=
  decide (|(v.map normSq).sum - 1| ≤ 1 / 10 ^ 8)

/-- The fields of a constructed `StateVector`. -/
structure SV where
  vec : List (ℚ × ℚ)
  dim : Nat
  radixes : List Nat
  size : Nat
  deriving DecidableEq

/-- Source `StateVector.__init__` on a raw vector (the copy-constructor
branch does not apply): reject non-pure-state inputs with `TypeError`, then
determine the radixes — the caller's if nonempty, else all qubits when the
dimension is a power of two (`dim & (dim-1) == 0`), else all qutrits when it
is a power of three (the float `log`/`round` probe of the source is
modelled by an exact bounded search), else `TypeError`; finally validate
the radixes (modelled from the spec: every radix is at least 2) with
`TypeError` and the dimension product with `ValueError`. -/
def init (vec : List (ℚ × ℚ)) (radixes : List Nat) : Except PyError SV :=
  if is_pure_state vec then
    let dim := vec.length
    let det : Except PyError (List Nat) :=
      if radixes ≠ [] then .ok radixes
      else if dim &&& (dim - 1) == 0 then .ok (List.replicate (Nat.log2 dim) 2)
      else
        match (List.range (dim + 1)).find? (fun k => 3 ^ k == dim) with
        | some k => .ok (List.replicate k 3)
        | none => .error .typeError
    match det with
    | .error e => .error e
    | .ok rads =>
        if rads.all (fun r => 2 ≤ r) then
          if rads.prod = dim then .ok ⟨vec, dim, rads, rads.length⟩
          else .error .valueError
        else .error .typeError
  else .error .typeError

end StateVector

/-- C6 counterexample: the vector `[2]` has squared-magnitude sum 4, far
beyond the tolerance, and constructing a `StateVector` from it raises
`TypeError` (source line `raise TypeError('Expected valid state vector.')`),
not an error of the ValueError kind as the claim states. -/
theorem statevector_nonunit_c6_counterexample :
    StateVector.init [((2 : ℚ), 0)] [] = Except.error PyError.typeError ∧
    StateVector.init [((2 : ℚ), 0)] [] ≠ Except.error PyError.valueError := by
  have hb : StateVector.is_pure_state [((2 : ℚ), 0)] = false := by
    simp only [StateVector.is_pure_state, decide_eq_false_iff_not]
    norm_num [StateVector.normSq]
  have h1 : StateVector.init [((2 : ℚ), 0)] [] = Except.error PyError.typeError := by
    rw [StateVector.init, if_neg (by simp [hb])]
  refine ⟨h1, ?_⟩
  intro hc
  rw [h1] at hc
  simp at hc

/-- C6 as amended: constructing a `StateVector` from any vector whose
squared-magnitude sum differs from 1 by more than the tolerance fails, and
the error raised is of the TypeError kind — the same kind as the
malformed-type construction errors — not the ValueError kind. -/
theorem statevector_nonunit_typeerror_c6 (vec : List (ℚ × ℚ))
    (radixes : List Nat)
    (h : ¬ |(vec.map StateVector.normSq).sum - 1| ≤ 1 / 10 ^ 8) :
    StateVector.init vec radixes = Except.error PyError.typeError := by
  have hb : StateVector.is_pure_state vec = false := by
    simp only [StateVector.is_pure_state, decide_eq_false_iff_not]
    exact h
  rw [StateVector.init, if_neg (by simp [hb])]

/-- Witness for the amended C6 at the concrete vector `[2]`. -/
theorem statevector_nonunit_typeerror_c6_witness :
    StateVector.init [((2 : ℚ), 0)] [] = Except.error PyError.typeError :=
  statevector_nonunit_typeerror_c6 [((2 : ℚ), 0)] [] (by norm_num [StateVector.normSq])

/-! ## Singleton (src/bqskit/utils/singleton.py) -/

namespace Singleton

/-- The format string of the debug-log call in `Singleton.__new__`.  It
contains no percent character, hence no conversion specifier. -/
def fmtStr : String := "Creating singleton instance for class: "

/-- Python's `str.__mod__` (the `%` formatting operator) at the fidelity the
embedded source exercises: a format string containing no percent character
has no conversion specifier, so applying it to a (non-empty, non-mapping)
argument raises `TypeError: not all arguments converted during string
formatting`.  The branch for format strings that do contain a percent
character is never reached by the source's literal. -/
def pyStrMod (fmt : String) (arg : String) : Except PyError String :=
  if fmt.data.any (fun c => c = Char.ofNat 37) then .ok (fmt ++ arg)
  else .error .typeError

/-- Source `Singleton.__new__` as a state transformer: the state is the
class attribute `_instance` (`none` = Python `None`), `fresh` stands for
the object `super().__new__(cls)` would allocate, and the first component
is the call's outcome.  The `_logger.debug(...)` argument is evaluated
eagerly — before `cls._instance` is ever assigned — so its exception
propagates and leaves the state untouched. -/
def new (clsName : String) (inst : Option Nat) (fresh : Nat) :
    Except PyError Nat × Option Nat :=
  match inst with
  | none =>
      match pyStrMod fmtStr clsName with
      | .error e => (.error e, none)
      | .ok _ => (.ok fresh, some fresh)
  | some i => (.ok i, some i)

end Singleton

/-- C9: every first instantiation of `Singleton` or of any subclass (the
class name is the only class-dependent input) raises `TypeError` from the
`%` applied to a specifier-free format string, and it does so before an
instance is cached: the `_instance` state is still `none` afterwards, so
the documented same-object behaviour of repeated instantiation is never
reached — every retry fails the same way. -/
theorem singleton_new_typeerror_c9 (clsName : String) (fresh : Nat) :
    Singleton.new clsName none fresh = (Except.error PyError.typeError, none) := by
  have hpct : Singleton.fmtStr.data.any (fun c => c = Char.ofNat 37) = false := by
    decide
  rw [Singleton.new, Singleton.pyStrMod, hpct]
  rfl

/-! ## U2Gate (src/bqskit/ir/gates/parameterized/u2.py) -/

namespace U2Gate

/-- The constant `sq2 = np.sqrt(2) / 2` of the source. -/
noncomputable def sq2 : ℂ := ((Real.sqrt 2 / 2 : ℝ) : ℂ)

/-- Source `U2Gate.get_unitary` (the `check_parameters` guard aside): the
matrix `[[sq2, -eil*sq2], [eip*sq2, eip*eil*sq2]]` with
`eip = exp(i*params[0])` and `eil = exp(i*params[1])`. -/
noncomputable def get_unitary (p0 p1 : ℝ) : Matrix (Fin 2) (Fin 2) ℂ :=
  !![sq2, -Complex.exp (Complex.I * p1) * sq2;
     Complex.exp (Complex.I * p0) * sq2,
     Complex.exp (Complex.I * p0) * Complex.exp (Complex.I * p1) * sq2]

/-- Source `U2Gate.get_grad`: index 0 is the derivative with respect to
`params[0]` (`deip = 1j*exp(1j*params[0])`), index 1 with respect to
`params[1]` (`deil = 1j*exp(1j*params[1])`). -/
noncomputable def get_grad (p0 p1 : ℝ) : Fin 2 → Matrix (Fin 2) (Fin 2) ℂ :=
  ![!![0, 0;
      Complex.I * Complex.exp (Complex.I * p0) * sq2,
      Complex.I * Complex.exp (Complex.I * p0) * Complex.exp (Complex.I * p1) * sq2],
    !![0, -(Complex.I * Complex.exp (Complex.I * p1)) * sq2;
      0, Complex.exp (Complex.I * p0) * (Complex.I * Complex.exp (Complex.I * p1)) * sq2]]

theorem hasDerivAt_cexp_mul_I (z : ℝ) :
    HasDerivAt (fun t : ℝ => Complex.exp (Complex.I * t))
      (Complex.I * Complex.exp (Complex.I * z)) z := by
  have h0 : HasDerivAt (fun w : ℂ => Complex.I * w) Complex.I (z : ℂ) := by
    simpa using (hasDerivAt_id (z : ℂ)).const_mul Complex.I
  have h2 := h0.cexp.comp_ofReal
  rwa [mul_comm] at h2

end U2Gate

/-- C8: for the U2 gate and every parameter vector `[p0, p1]`, each entry
of each matrix returned by `get_grad` is the exact analytic partial
derivative of the corresponding entry of `get_unitary` with respect to the
corresponding parameter: index 0 differentiates in `p0`, index 1 in `p1`. -/
theorem u2_get_grad_is_derivative_c8 (p0 p1 : ℝ) (j k : Fin 2) :
    HasDerivAt (fun t : ℝ => U2Gate.get_unitary t p1 j k)
      (U2Gate.get_grad p0 p1 0 j k) p0 ∧
    HasDerivAt (fun t : ℝ => U2Gate.get_unitary p0 t j k)
      (U2Gate.get_grad p0 p1 1 j k) p1 := by
  fin_cases j <;> fin_cases k <;>
    constructor <;>
    simp only [U2Gate.get_unitary, U2Gate.get_grad, Matrix.cons_val',
      Matrix.cons_val_zero, Matrix.cons_val_one, Matrix.head_cons,
      Matrix.empty_val', Matrix.cons_val_fin_one, Matrix.head_fin_const,
      Matrix.of_apply, Fin.isValue]
  · exact hasDerivAt_const p0 _
  · exact hasDerivAt_const p1 _
  · exact hasDerivAt_const p0 _
  · exact ((U2Gate.hasDerivAt_cexp_mul_I p1).neg).mul_const U2Gate.sq2
  · exact (U2Gate.hasDerivAt_cexp_mul_I p0).mul_const U2Gate.sq2
  · exact hasDerivAt_const p1 _
  · exact ((U2Gate.hasDerivAt_cexp_mul_I p0).mul_const
      (Complex.exp (Complex.I * p1))).mul_const U2Gate.sq2
  · exact ((U2Gate.hasDerivAt_cexp_mul_I p1).const_mul
      (Complex.exp (Complex.I * p0))).mul_const U2Gate.sq2

/-! ## VariableLocationGate (src/bqskit/ir/gates/composed/varloc.py)

Numpy arrays carry their shape at run time, so the embedding uses
dynamically-shaped matrices: a row count, a column count, and an entry
function.  Matrix product contracts over the left factor's column count,
exactly as the shapes match whenever the numpy code runs without error. -/

/-- A dynamically-shaped complex matrix, modelling a 2-D `np.ndarray` of
`complex128` (entries outside the shape are irrelevant). -/
structure NMat where
  rows : Nat
  cols : Nat
  entry : Nat → Nat → ℂ

namespace NMat

/-- Numpy `@` (matrix product); the contraction ranges over the left
factor's column count. -/
noncomputable def mul (A B : NMat) : NMat :=
  ⟨A.rows, B.cols, fun i j => ∑ m ∈ Finset.range A.cols, A.entry i m * B.entry m j⟩

/-- Numpy `.T`. -/
noncomputable def transpose (A : NMat) : NMat := ⟨A.cols, A.rows, fun i j => A.entry j i⟩

/-- Conjugate transpose. -/
noncomputable def conjTranspose (A : NMat) : NMat :=
  ⟨A.cols, A.rows, fun i j => star (A.entry j i)⟩

/-- Numpy `np.kron`. -/
noncomputable def kron (A B : NMat) : NMat :=
  ⟨A.rows * B.rows, A.cols * B.cols, fun i j =>
    A.entry (i / B.rows) (j / B.cols) * B.entry (i % B.rows) (j % B.cols)⟩

/-- Multiplication of a matrix by a real scalar (`a * s` in the source). -/
noncomputable def smulR (a : ℝ) (A : NMat) : NMat :=
  ⟨A.rows, A.cols, fun i j => (a : ℂ) * A.entry i j⟩

/-- Entrywise sum. -/
noncomputable def add (A B : NMat) : NMat :=
  ⟨A.rows, A.cols, fun i j => A.entry i j + B.entry i j⟩

/-- Entrywise difference. -/
noncomputable def sub (A B : NMat) : NMat :=
  ⟨A.rows, A.cols, fun i j => A.entry i j - B.entry i j⟩

/-- Numpy `np.identity`. -/
noncomputable def idMat (n : Nat) : NMat :=
  ⟨n, n, fun i j => if i = j ∧ i < n then 1 else 0⟩

/-- Numpy `np.sum(list_of_matrices, 0)`: the entrywise sum, with the shape
of the first element (the list is never empty where this is used). -/
noncomputable def sumList (ms : List NMat) : NMat :=
  ⟨((ms.head?).map NMat.rows).getD 0, ((ms.head?).map NMat.cols).getD 0,
    fun i j => (ms.map (fun m => m.entry i j)).sum⟩

theorem matmul_assoc (A B C : NMat) : (A.mul B).mul C = A.mul (B.mul C) := by
  simp only [mul]
  congr 1
  funext i j
  simp only [Finset.sum_mul, Finset.mul_sum, mul_assoc]
  exact Finset.sum_comm

/-- The matrix is square and both products with its conjugate transpose are
the identity — validity as a unitary for the carried dimension. -/
def IsUnitaryNMat (M : NMat) : Prop :=
  M.rows = M.cols ∧ M.mul M.conjTranspose = idMat M.rows ∧
    M.conjTranspose.mul M = idMat M.rows

end NMat

/-- Modelled from the spec: `UnitaryMatrix.closest_to` (not part of the
provided sources) projects a matrix onto the nearest valid unitary for the
declared radixes.  The embedding keeps the two properties the claims rest
on: the result is always a valid unitary of the same dimension, and a
matrix that is already unitary is its own unique nearest unitary.  Which
unitary is nearest to a non-unitary input is not determined by the claims,
so that branch returns a fixed valid unitary (the identity). -/
noncomputable def closest_to (M : NMat) : NMat :=
  @ite _ (NMat.IsUnitaryNMat M) (Classical.propDecidable _) M (NMat.idMat M.rows)

theorem closest_to_rows (M : NMat) : (closest_to M).rows = M.rows := by
  unfold closest_to
  split <;> rfl

theorem closest_to_of_not_unitary (M : NMat) (h : ¬ NMat.IsUnitaryNMat M) :
    closest_to M = NMat.idMat M.rows := by
  unfold closest_to
  exact if_neg h

/-- Modelled from the spec: `softmax` (`bqskit.utils.math`, not part of the
provided sources), the temperature-scaled softmax
`softmax(x, β)ᵢ = exp(β xᵢ) / Σⱼ exp(β xⱼ)`. -/
noncomputable def softmax (xs : List ℝ) (beta : ℝ) : List ℝ :=
  xs.map (fun x => Real.exp (beta * x) / ((xs.map (fun y => Real.exp (beta * y))).sum))

/-- One step of numpy `np.argmax`'s scan; strict comparison keeps the first
occurrence of the maximum. -/
noncomputable def argmaxAux : List ℝ → ℝ → Nat → Nat → Nat
  | [], _, _, best => best
  | x :: xs, bv, i, best =>
      if bv < x then argmaxAux xs x (i + 1) i else argmaxAux xs bv (i + 1) best

/-- Numpy `np.argmax` on a 1-D array: the index of the first occurrence of
the largest value. -/
noncomputable def np_argmax : List ℝ → Nat
  | [] => 0
  | x :: xs => argmaxAux xs x 1 0

/-- Little-endian bit `k` of `x`. -/
def bitAt (x k : Nat) : Nat := x / 2 ^ k % 2

/-- The qubit ordering a candidate location induces: the location's qubits
first, the remaining register qubits after them in ascending order. -/
def qubitOrder (n : Nat) (l : List Nat) : List Nat :=
  l ++ (List.range n).filter (fun i => decide (i ∉ l))

/-- The basis-state permutation underlying `from_qubit_location`: bit `q`
of the image is bit `qubitOrder[q]` of the argument. -/
def permBits (n : Nat) (l : List Nat) (x : Nat) : Nat :=
  ∑ q ∈ Finset.range n, bitAt x ((qubitOrder n l).getD q 0) * 2 ^ q

/-- Modelled from the spec: `PermutationMatrix.from_qubit_location` (not
part of the provided sources) — the `2^n`-dimensional permutation matrix
embedding a candidate location's qubits into the full register ordering.
The claims are invariant under the qubit-index endianness convention, which
is internal to this model. -/
def from_qubit_location (n : Nat) (l : List Nat) : NMat :=
  ⟨2 ^ n, 2 ^ n, fun i j =>
    if i < 2 ^ n ∧ j < 2 ^ n ∧ i = permBits n l j then 1 else 0⟩

/-- The part of the gate capability contract a `VariableLocationGate`
consumes from its subgate. -/
structure GateSig where
  num_params : Nat
  size : Nat
  radixes : List Nat
  get_unitary : List ℝ → NMat
  get_grad : List ℝ → List NMat

namespace VariableLocationGate

/-- The fields a constructed `VariableLocationGate` carries (source
`__init__`, lines 61-100). -/
structure VLG where
  gate : GateSig
  size : Nat
  locations : List (List Nat)
  radixes : List Nat
  num_params : Nat
  extension_size : Nat
  I : NMat
  perms : List NMat

/-- Modelled from the spec: `is_valid_location` (`bqskit.utils.typing`, not
part of the provided sources) — a location is a tuple of distinct
non-negative qudit indices (non-negativity is carried by the `Nat` type). -/
def is_valid_location (l : List Nat) : Bool := decide l.Nodup

/-- The radix-map filling loop of `__init__`: walk the
(position, radix) pairs in source order; record the radix the first time a
position is seen and raise `ValueError` on any later disagreement. -/
def assignPairs : List (Nat × Nat) → (Nat → Option Nat) →
    Except PyError (Nat → Option Nat)
  | [], m => .ok m
  | (q, r) :: rest, m =>
      match m q with
      | none => assignPairs rest (fun x => if x = q then some r else m x)
      | some rp => if rp = r then assignPairs rest m else .error .valueError

/-- Source `VariableLocationGate.__init__`: `TypeError` for an invalid
location, `ValueError` for a wrong-sized location or an empty candidate
list or a radix mismatch; on success `size = max(max(l)) + 1`, unreferenced
positions default to radix 2, `num_params = subgate.num_params +
len(locations)`, the identity pad is `np.identity(2 ** extension_size)`,
and the candidate permutation matrices are precomputed.  The pairs feed the
radix map as (position, radix), pairing `zip(gate.radixes, l)` of the
source with the tuple order swapped. -/
noncomputable def init (gate : GateSig) (locations : List (List Nat)) :
    Except PyError VLG :=
  if locations.all (fun l => is_valid_location l) then
    if locations.all (fun l => l.length = gate.size) then
      if locations.length < 1 then .error .valueError
      else
        let size := ((locations.map (fun l => l.foldl max 0)).foldl max 0) + 1
        let pairs := locations.flatMap (fun l => l.zip gate.radixes)
        match assignPairs pairs (fun _ => none) with
        | .error e => .error e
        | .ok m =>
            .ok { gate := gate
                  size := size
                  locations := locations
                  radixes := (List.range size).map (fun i => (m i).getD 2)
                  num_params := gate.num_params + locations.length
                  extension_size := size - gate.size
                  I := NMat.idMat (2 ^ (size - gate.size))
                  perms := locations.map (fun l => from_qubit_location size l) }
    else .error .valueError
  else .error .typeError

/-- Source `split_params`: subgate-parameter prefix and location-weight
suffix. -/
def split_params (g : VLG) (params : List ℝ) : List ℝ × List ℝ :=
  (params.take g.gate.num_params, params.drop g.gate.num_params)

/-- Source `get_location`: the candidate at `np.argmax` of the raw
location-weight suffix (no parameter-count check in the source). -/
noncomputable def get_location (g : VLG) (params : List ℝ) : List Nat :=
  g.locations.getD (np_argmax (split_params g params).2) []

/-- Source `get_unitary`: after the `check_parameters` length guard
(modelled from the spec as a ParameterMismatch), softmax the weights at
temperature 10, form `P`, and return the closest valid unitary to
`P @ kron(G, I) @ P.T` (evaluated left to right as in Python). -/
noncomputable def get_unitary (g : VLG) (params : List ℝ) :
    Except PyError NMat :=
  if params.length = g.num_params then
    let a := (split_params g params).1
    let l := softmax (split_params g params).2 10
    let P := NMat.sumList ((l.zip g.perms).map (fun p => NMat.smulR p.1 p.2))
    .ok (closest_to ((P.mul (NMat.kron (g.gate.get_unitary a) g.I)).mul
      P.transpose))
  else .error .parameterMismatch

/-- Source `get_unitary_and_grad`: the same `P` and
`PGPT = P @ (G @ P.T)` (note: no closest-unitary projection here), the
subgate-parameter gradient block `P @ kron(dG, I) @ P.T`, and the weight
gradient block `10 * lᵢ * (Permᵢ @ GPT + PG @ Permᵢ.T - 2 * PGPT)`,
concatenated subgate block first. -/
noncomputable def get_unitary_and_grad (g : VLG) (params : List ℝ) :
    Except PyError (NMat × List NMat) :=
  if params.length = g.num_params then
    let a := (split_params g params).1
    let l := softmax (split_params g params).2 10
    let P := NMat.sumList ((l.zip g.perms).map (fun p => NMat.smulR p.1 p.2))
    let G := NMat.kron (g.gate.get_unitary a) g.I
    let PG := P.mul G
    let GPT := G.mul P.transpose
    let PGPT := P.mul GPT
    let dG := (g.gate.get_grad a).map
      (fun D => (P.mul (NMat.kron D g.I)).mul P.transpose)
    let dP := (l.zip g.perms).map (fun p =>
      NMat.smulR (10 * p.1)
        (((p.2.mul GPT).add (PG.mul p.2.transpose)).sub (NMat.smulR 2 PGPT)))
    .ok (PGPT, dG ++ dP)
  else .error .parameterMismatch

end VariableLocationGate

/-- C10 as amended: the first component of `get_unitary_and_grad` is the
unprojected product `P @ (G ⊗ I_pad) @ Pᵀ`; `get_unitary` returns the
closest valid unitary to exactly that matrix, so the two sides agree
precisely when the product is already unitary, and `get_unitary` equals the
closest-unitary projection applied to the first component of
`get_unitary_and_grad` (associativity bridges the two evaluation orders of
the triple product). -/
theorem vlg_unitary_vs_unitary_and_grad_c10
    (g : VariableLocationGate.VLG) (params : List ℝ) :
    VariableLocationGate.get_unitary g params =
      Except.map (fun r : NMat × List NMat => closest_to r.1)
        (VariableLocationGate.get_unitary_and_grad g params) := by
  simp only [VariableLocationGate.get_unitary,
    VariableLocationGate.get_unitary_and_grad]
  split_ifs with h
  · simp only [Except.map, NMat.matmul_assoc]
  · rfl

/-- A zero-parameter single-qubit subgate whose unitary is the 2-by-2
identity, used to instantiate the variable-location wrapper concretely. -/
noncomputable def idGate1q : GateSig :=
  ⟨0, 1, [2], fun _ => NMat.idMat 2, fun _ => []⟩

/-- The example wrapper: the identity subgate multiplexed over qubit 0 and
qubit 1 of a two-qubit register, exactly the fields
`VariableLocationGate.init idGate1q [[0], [1]]` produces. -/
noncomputable def exampleVLG : VariableLocationGate.VLG :=
  { gate := idGate1q, size := 2, locations := [[0], [1]], radixes := [2, 2],
    num_params := 2, extension_size := 1, I := NMat.idMat 2,
    perms := [from_qubit_location 2 [0], from_qubit_location 2 [1]] }

theorem exampleVLG_init :
    VariableLocationGate.init idGate1q [[0], [1]] = Except.ok exampleVLG := by
  rfl

/-- A zero-parameter single-qutrit subgate (radix 3) whose unitary is the
3-by-3 identity. -/
noncomputable def qutritGate : GateSig :=
  ⟨0, 1, [3], fun _ => NMat.idMat 3, fun _ => []⟩

/-- The wrapper the qutrit subgate produces on candidate locations
`[[0], [1]]`; note the hard-coded qubit pad `I = identity(2 ** 1)` and the
qubit permutation matrices of dimension `2 ** 2`. -/
noncomputable def qutritVLG : VariableLocationGate.VLG :=
  { gate := qutritGate, size := 2, locations := [[0], [1]], radixes := [3, 3],
    num_params := 2, extension_size := 1, I := NMat.idMat 2,
    perms := [from_qubit_location 2 [0], from_qubit_location 2 [1]] }

/-- C3: evaluating the code at the failing input.  For the single-qutrit
subgate multiplexed over `[[0], [1]]`, construction succeeds with declared
radixes `(3, 3)` whose product is 9, but the identity pad is hard-coded to
`2 ** extension_size`, so `G ⊗ I_pad` has dimension `3 * 2 = 6 ≠ 9`, and
`get_unitary` returns a matrix of dimension `2 ** size = 4 ≠ 9` — the
`Π radixes` contract of the claim is violated (the source marks the pad
with `TODO: This needs to changed for radixes`). -/
theorem vlg_qutrit_dimension_c3 :
    VariableLocationGate.init qutritGate [[0], [1]] = Except.ok qutritVLG ∧
    qutritVLG.radixes = [3, 3] ∧
    qutritVLG.radixes.prod = 9 ∧
    (NMat.kron (qutritVLG.gate.get_unitary []) qutritVLG.I).rows = 6 ∧
    (∃ M, VariableLocationGate.get_unitary qutritVLG [0, 0] = Except.ok M ∧
      M.rows = 4) ∧
    (6 : Nat) ≠ 9 ∧ (4 : Nat) ≠ 9 := by
  refine ⟨rfl, rfl, rfl, rfl, ?_, by omega, by omega⟩
  rw [VariableLocationGate.get_unitary,
    if_pos (show ([0, 0] : List ℝ).length = qutritVLG.num_params from rfl)]
  refine ⟨_, rfl, ?_⟩
  rw [closest_to_rows]
  rfl

theorem argmaxAux_map (f : ℝ → ℝ) (hf : StrictMono f) :
    ∀ (xs : List ℝ) (bv : ℝ) (i best : Nat),
      argmaxAux (xs.map f) (f bv) i best = argmaxAux xs bv i best := by
  intro xs
  induction xs with
  | nil => intro bv i best; rfl
  | cons x t ih =>
      intro bv i best
      simp only [List.map_cons, argmaxAux]
      by_cases h : bv < x
      · rw [if_pos (hf h), if_pos h, ih]
      · rw [if_neg (fun hc => h (hf.lt_iff_lt.mp hc)), if_neg h, ih]

theorem np_argmax_map (f : ℝ → ℝ) (hf : StrictMono f) (xs : List ℝ) :
    np_argmax (xs.map f) = np_argmax xs := by
  cases xs with
  | nil => rfl
  | cons x t =>
      simp only [List.map_cons, np_argmax]
      exact argmaxAux_map f hf t x 1 0

/-- C7: `get_location` takes `np.argmax` of the raw location weights, and
because the temperature-scaled softmax is strictly monotone this is the
candidate with the largest softmax weight: the result equals the candidate
at the argmax of the softmax of the location-weight suffix. -/
theorem vlg_get_location_c7 (g : VariableLocationGate.VLG) (params : List ℝ)
    (hne : g.locations ≠ [])
    (hlen : params.length = g.gate.num_params + g.locations.length) :
    VariableLocationGate.get_location g params =
      g.locations.getD
        (np_argmax (softmax (params.drop g.gate.num_params) 10)) [] := by
  rw [VariableLocationGate.get_location]
  have hw : (params.drop g.gate.num_params) ≠ [] := by
    have h1 : (params.drop g.gate.num_params).length = g.locations.length := by
      rw [List.length_drop, hlen]
      omega
    intro hc
    rw [hc] at h1
    exact hne (List.eq_nil_of_length_eq_zero h1.symm)
  have hZ : 0 < ((params.drop g.gate.num_params).map
      (fun y => Real.exp (10 * y))).sum := by
    apply List.sum_pos
    · intro x hx
      obtain ⟨y, _, rfl⟩ := List.mem_map.mp hx
      exact Real.exp_pos _
    · simpa using hw
  have hf : StrictMono (fun x : ℝ => Real.exp (10 * x) /
      ((params.drop g.gate.num_params).map (fun y => Real.exp (10 * y))).sum) := by
    intro a b hab
    apply (div_lt_div_iff_of_pos_right hZ).mpr
    exact Real.exp_lt_exp.mpr (by linarith)
  rw [softmax, np_argmax_map _ hf]
  rfl

/-- Witness for C7 at the example wrapper with weights `[3/10, 7/10]`. -/
theorem vlg_get_location_c7_witness :
    VariableLocationGate.get_location exampleVLG [(3 : ℝ)/10, 7/10] =
      exampleVLG.locations.getD
        (np_argmax (softmax (([(3 : ℝ)/10, 7/10]).drop
          exampleVLG.gate.num_params) 10)) [] :=
  vlg_get_location_c7 exampleVLG [(3 : ℝ)/10, 7/10]
    (by simp [exampleVLG]) (by simp [exampleVLG, idGate1q])

namespace VariableLocationGate

theorem assignPairs_cons_none (q r : Nat) (rest : List (Nat × Nat))
    (m : Nat → Option Nat) (hm : m q = none) :
    assignPairs ((q, r) :: rest) m =
      assignPairs rest (fun x => if x = q then some r else m x) := by
  rw [assignPairs, hm]

theorem assignPairs_cons_some (q r rp : Nat) (rest : List (Nat × Nat))
    (m : Nat → Option Nat) (hm : m q = some rp) :
    assignPairs ((q, r) :: rest) m =
      if rp = r then assignPairs rest m else .error .valueError := by
  rw [assignPairs, hm]

theorem assignPairs_ok_sound :
    ∀ (pairs : List (Nat × Nat)) (m m' : Nat → Option Nat),
      assignPairs pairs m = .ok m' →
      (∀ q r, m q = some r → m' q = some r) ∧
      (∀ p ∈ pairs, m' p.1 = some p.2) := by
  intro pairs
  induction pairs with
  | nil =>
      intro m m' h
      injection h with h
      subst h
      exact ⟨fun q r hq => hq, by simp⟩
  | cons p rest ih =>
      intro m m' h
      obtain ⟨q, r⟩ := p
      cases hm : m q with
      | none =>
          rw [assignPairs_cons_none q r rest m hm] at h
          obtain ⟨hpres, hall⟩ := ih _ _ h
          have hupd : ∀ q' r', m q' = some r' →
              (fun x => if x = q then some r else m x) q' = some r' := by
            intro q' r' hq'
            by_cases hqq : q' = q
            · subst hqq
              rw [hm] at hq'
              cases hq'
            · simpa [hqq] using hq'
          refine ⟨fun q' r' hq' => hpres q' r' (hupd q' r' hq'), ?_⟩
          intro p hp
          rcases List.mem_cons.mp hp with h1 | h1
          · subst h1
            exact hpres q r (by simp)
          · exact hall p h1
      | some rp =>
          rw [assignPairs_cons_some q r rp rest m hm] at h
          by_cases hrr : rp = r
          · rw [if_pos hrr] at h
            obtain ⟨hpres, hall⟩ := ih _ _ h
            refine ⟨hpres, ?_⟩
            intro p hp
            rcases List.mem_cons.mp hp with h1 | h1
            · subst h1
              exact hpres q r (hrr ▸ hm)
            · exact hall p h1
          · rw [if_neg hrr] at h
            exact absurd h (by simp)

theorem assignPairs_unset :
    ∀ (pairs : List (Nat × Nat)) (m m' : Nat → Option Nat),
      assignPairs pairs m = .ok m' →
      ∀ q, (∀ p ∈ pairs, p.1 ≠ q) → m' q = m q := by
  intro pairs
  induction pairs with
  | nil =>
      intro m m' h q _
      injection h with h
      subst h
      rfl
  | cons p rest ih =>
      intro m m' h q hq
      obtain ⟨q0, r0⟩ := p
      have hq0 : q0 ≠ q := hq (q0, r0) (List.mem_cons_self _ _)
      cases hm : m q0 with
      | none =>
          rw [assignPairs_cons_none q0 r0 rest m hm] at h
          have hrec := ih _ _ h q (fun p hp => hq p (List.mem_cons_of_mem _ hp))
          rw [hrec, if_neg (fun hc => hq0 hc.symm)]
      | some rp =>
          rw [assignPairs_cons_some q0 r0 rp rest m hm] at h
          by_cases hrr : rp = r0
          · rw [if_pos hrr] at h
            exact ih _ _ h q (fun p hp => hq p (List.mem_cons_of_mem _ hp))
          · rw [if_neg hrr] at h
            exact absurd h (by simp)

theorem assignPairs_total :
    ∀ (pairs : List (Nat × Nat)) (m : Nat → Option Nat),
      (∃ m', assignPairs pairs m = .ok m') ∨
        assignPairs pairs m = .error .valueError := by
  intro pairs
  induction pairs with
  | nil => intro m; exact Or.inl ⟨m, rfl⟩
  | cons p rest ih =>
      intro m
      obtain ⟨q, r⟩ := p
      cases hm : m q with
      | none =>
          rw [assignPairs_cons_none q r rest m hm]
          exact ih _
      | some rp =>
          rw [assignPairs_cons_some q r rp rest m hm]
          by_cases hrr : rp = r
          · rw [if_pos hrr]
            exact ih _
          · rw [if_neg hrr]
            exact Or.inr rfl

end VariableLocationGate

/-- C5: construction of a `VariableLocationGate` fails on an empty candidate
list; fails (with `TypeError` for a malformed location, else `ValueError`)
when any candidate's length differs from the subgate's size; fails with
`ValueError` when two candidates assign different radixes to the same
register position; and on success every register position referenced by no
candidate gets radix 2 and `num_params = subgate.num_params +
len(locations)`. -/
theorem vlg_init_validation_c5 (gate : GateSig)
    (locations : List (List Nat)) :
    (VariableLocationGate.init gate [] = Except.error PyError.valueError) ∧
    ((∃ l ∈ locations, l.length ≠ gate.size) →
      ∃ e, VariableLocationGate.init gate locations = Except.error e) ∧
    ((∀ l ∈ locations, l.Nodup) →
      (∀ l ∈ locations, l.length = gate.size) →
      (∃ l1 ∈ locations, ∃ l2 ∈ locations, ∃ q r1 r2,
        (q, r1) ∈ l1.zip gate.radixes ∧ (q, r2) ∈ l2.zip gate.radixes ∧
          r1 ≠ r2) →
      VariableLocationGate.init gate locations =
        Except.error PyError.valueError) ∧
    (∀ g, VariableLocationGate.init gate locations = Except.ok g →
      (∀ q, q < g.size → (∀ l ∈ locations, q ∉ l) → g.radixes.getD q 0 = 2) ∧
      g.num_params = gate.num_params + locations.length) := by
  refine ⟨rfl, ?_, ?_, ?_⟩
  · -- a wrong-sized candidate fails construction
    intro ⟨l, hl, hlsz⟩
    by_cases hv : locations.all
        (fun l => VariableLocationGate.is_valid_location l) = true
    · have hsz : ¬ (locations.all (fun l => decide (l.length = gate.size)) = true) := by
        intro hc
        exact hlsz (of_decide_eq_true (List.all_eq_true.mp hc l hl))
      refine ⟨PyError.valueError, ?_⟩
      rw [VariableLocationGate.init, if_pos hv, if_neg hsz]
    · refine ⟨PyError.typeError, ?_⟩
      rw [VariableLocationGate.init, if_neg hv]
  · -- a radix conflict fails construction with ValueError
    intro hnodup hsize ⟨l1, hl1, l2, hl2, q, r1, r2, hz1, hz2, hne⟩
    have hv : locations.all
        (fun l => VariableLocationGate.is_valid_location l) = true := by
      rw [List.all_eq_true]
      intro l hl
      simpa [VariableLocationGate.is_valid_location] using hnodup l hl
    have hsz : locations.all (fun l => decide (l.length = gate.size)) = true := by
      rw [List.all_eq_true]
      intro l hl
      exact decide_eq_true (hsize l hl)
    have hne0 : ¬ (locations.length < 1) := by
      have : locations ≠ [] := fun hc => by subst hc; cases hl1
      have := List.length_pos.mpr this
      omega
    rw [VariableLocationGate.init, if_pos hv, if_pos hsz, if_neg hne0]
    dsimp only
    rcases VariableLocationGate.assignPairs_total
        (locations.flatMap (fun l => l.zip gate.radixes)) (fun _ => none) with
      ⟨m', hm'⟩ | herr
    · exfalso
      have hsound := (VariableLocationGate.assignPairs_ok_sound _ _ _ hm').2
      have hp1 : ((q, r1) : Nat × Nat) ∈
          locations.flatMap (fun l => l.zip gate.radixes) :=
        List.mem_flatMap.mpr ⟨l1, hl1, hz1⟩
      have hp2 : ((q, r2) : Nat × Nat) ∈
          locations.flatMap (fun l => l.zip gate.radixes) :=
        List.mem_flatMap.mpr ⟨l2, hl2, hz2⟩
      have e1 := hsound _ hp1
      have e2 := hsound _ hp2
      simp only at e1 e2
      rw [e1] at e2
      exact hne (Option.some.inj e2)
    · rw [herr]
  · -- success: silent radix-2 default and the parameter count
    intro g hg
    rw [VariableLocationGate.init] at hg
    split_ifs at hg with h1 h2 h3
    dsimp only at hg
    rcases hassign : VariableLocationGate.assignPairs
        (locations.flatMap (fun l => l.zip gate.radixes)) (fun _ => none) with
      e | m
    · rw [hassign] at hg
      exact absurd hg (by simp)
    · rw [hassign] at hg
      injection hg with hg
      rw [← hg]
      constructor
      · intro q hq hnotmem
        have hmq : m q = none := by
          have := VariableLocationGate.assignPairs_unset _ _ _ hassign q ?_
          · exact this
          · intro p hp
            obtain ⟨l, hl, hzl⟩ := List.mem_flatMap.mp hp
            obtain ⟨p1, p2⟩ := p
            have := (List.of_mem_zip hzl).1
            exact fun hc => hnotmem l hl (hc ▸ this)
        have hqlt : q < ((locations.map (fun l => l.foldl max 0)).foldl max 0) + 1 := hq
        simp only [List.getD_eq_getElem?_getD, List.getElem?_map,
          List.getElem?_range hqlt, Option.map_some', Option.getD_some, hmq]
        rfl
      · rfl

/-- The wrapper built from the identity subgate on candidate locations
`[[0], [2]]`: register position 1 is referenced by no candidate and gets
the silent radix-2 default. -/
noncomputable def gapVLG : VariableLocationGate.VLG :=
  { gate := idGate1q, size := 3, locations := [[0], [2]],
    radixes := [2, 2, 2], num_params := 2, extension_size := 2,
    I := NMat.idMat (2 ^ 2),
    perms := [from_qubit_location 3 [0], from_qubit_location 3 [2]] }

/-- Witness for C5: the empty list fails; a wrong-sized candidate fails; a
radix conflict (a qubit/qutrit subgate placed both ways on two positions)
fails with ValueError; and the gapped example constructs with radix 2 at
the unreferenced position 1 and `num_params = 0 + 2`. -/
theorem vlg_init_validation_c5_witness :
    VariableLocationGate.init idGate1q [] = Except.error PyError.valueError ∧
    (∃ e, VariableLocationGate.init idGate1q [[0, 1]] = Except.error e) ∧
    VariableLocationGate.init
      ⟨0, 2, [2, 3], fun _ => NMat.idMat 6, fun _ => []⟩ [[0, 1], [1, 0]] =
        Except.error PyError.valueError ∧
    VariableLocationGate.init idGate1q [[0], [2]] = Except.ok gapVLG ∧
    gapVLG.radixes.getD 1 0 = 2 ∧
    gapVLG.num_params = idGate1q.num_params + 2 := by
  have hginit : VariableLocationGate.init idGate1q [[0], [2]] =
      Except.ok gapVLG := rfl
  refine ⟨(vlg_init_validation_c5 idGate1q []).1,
    (vlg_init_validation_c5 idGate1q [[0, 1]]).2.1
      ⟨[0, 1], by simp, by simp [idGate1q]⟩,
    (vlg_init_validation_c5 _ [[0, 1], [1, 0]]).2.2.1
      (by intro l hl; fin_cases hl <;> simp)
      (by intro l hl; fin_cases hl <;> rfl)
      ⟨[0, 1], by simp, [1, 0], by simp, 1, 3, 2, by simp, by simp, by omega⟩,
    hginit,
    ((vlg_init_validation_c5 idGate1q [[0], [2]]).2.2.2 gapVLG hginit).1 1
      (by simp [gapVLG]) (by intro l hl; fin_cases hl <;> simp),
    ((vlg_init_validation_c5 idGate1q [[0], [2]]).2.2.2 gapVLG hginit).2⟩

theorem listSum_map_eq_finsetSum {M : Type} [AddCommMonoid M]
    (l : List ℝ) (f : ℝ → M) :
    (l.map f).sum = ∑ idx ∈ Finset.range l.length, f (l.getD idx 0) := by
  induction l with
  | nil => simp
  | cons x t ih =>
      simp only [List.map_cons, List.sum_cons, List.length_cons,
        Finset.sum_range_succ', List.getD_cons_succ, List.getD_cons_zero, ih]
      exact (add_comm _ _)

theorem getD_map_lt {α β : Type} (f : α → β) (l : List α) (i : Nat)
    (hi : i < l.length) (d : β) (d' : α) :
    (l.map f).getD i d = f (l.getD i d') := by
  simp [List.getD_eq_getElem?_getD, List.getElem?_map,
    List.getElem?_eq_getElem hi]

theorem sumList_zip_entry (ws : List ℝ) (ms : List NMat) (i j : Nat)
    (h : ws.length = ms.length) :
    (NMat.sumList ((ws.zip ms).map (fun p => NMat.smulR p.1 p.2))).entry i j =
      ∑ idx ∈ Finset.range ws.length,
        ((ws.getD idx 0 : ℝ) : ℂ) * (ms.getD idx (NMat.idMat 0)).entry i j := by
  induction ws generalizing ms with
  | nil => simp [NMat.sumList]
  | cons w wt ih =>
      cases ms with
      | nil => simp at h
      | cons mhd mt =>
          have hlen : wt.length = mt.length := by simpa using h
          simp only [List.zip_cons_cons, List.map_cons, NMat.sumList,
            NMat.smulR, List.sum_cons, List.length_cons]
          rw [Finset.sum_range_succ']
          simp only [List.getD_cons_succ, List.getD_cons_zero]
          rw [← ih mt hlen]
          simp only [NMat.sumList]
          exact (add_comm _ _)

/-- C2: for a constructed `VariableLocationGate` (fields as `init` sets
them) and any parameter vector of valid length, `get_unitary` splits the
parameters into a subgate prefix and a weight suffix, forms the convex
combination `P = Σᵢ softmax(w, 10)ᵢ · Permᵢ` over the candidate permutation
matrices — the softmax written out as `exp(10wᵢ)/Σⱼexp(10wⱼ)` — and returns
the closest valid unitary to `P · (G ⊗ I_pad) · Pᵀ` with `G` the subgate's
unitary at the prefix. -/
theorem vlg_get_unitary_c2 (g : VariableLocationGate.VLG) (params : List ℝ)
    (hnum : g.num_params = g.gate.num_params + g.locations.length)
    (hperm : g.perms = g.locations.map (fun l => from_qubit_location g.size l))
    (hne : g.locations ≠ [])
    (hlen : params.length = g.num_params) :
    ∃ P : NMat,
      P.rows = 2 ^ g.size ∧ P.cols = 2 ^ g.size ∧
      (∀ i j : Nat, P.entry i j =
        ∑ idx ∈ Finset.range g.locations.length,
          ((Real.exp (10 * (params.drop g.gate.num_params).getD idx 0) /
            ∑ jdx ∈ Finset.range g.locations.length,
              Real.exp (10 * (params.drop g.gate.num_params).getD jdx 0) : ℝ) : ℂ) *
            (from_qubit_location g.size (g.locations.getD idx [])).entry i j) ∧
      VariableLocationGate.get_unitary g params =
        Except.ok (closest_to ((P.mul (NMat.kron
          (g.gate.get_unitary (params.take g.gate.num_params)) g.I)).mul
            P.transpose)) := by
  set w := params.drop g.gate.num_params with hw
  have hwlen : w.length = g.locations.length := by
    rw [hw, List.length_drop, hlen, hnum]
    omega
  have hwne : w ≠ [] := by
    intro hc
    rw [hc] at hwlen
    exact hne (List.eq_nil_of_length_eq_zero hwlen.symm)
  have hsmlen : (softmax w 10).length = g.perms.length := by
    rw [softmax, List.length_map, hperm, List.length_map, hwlen]
  refine ⟨NMat.sumList (((softmax w 10).zip g.perms).map
    (fun p => NMat.smulR p.1 p.2)), ?_, ?_, ?_, ?_⟩
  · -- rows
    obtain ⟨l0, lt, hloc⟩ := List.exists_cons_of_ne_nil hne
    obtain ⟨w0, wt, hwc⟩ := List.exists_cons_of_ne_nil hwne
    rw [hperm, hloc, hwc]
    simp [softmax, NMat.sumList, NMat.smulR, from_qubit_location]
  · -- cols
    obtain ⟨l0, lt, hloc⟩ := List.exists_cons_of_ne_nil hne
    obtain ⟨w0, wt, hwc⟩ := List.exists_cons_of_ne_nil hwne
    rw [hperm, hloc, hwc]
    simp [softmax, NMat.sumList, NMat.smulR, from_qubit_location]
  · -- entries: the spec's softmax-weighted sum of permutation matrices
    intro i j
    rw [sumList_zip_entry _ _ _ _ hsmlen]
    rw [softmax, List.length_map, hwlen]
    apply Finset.sum_congr rfl
    intro idx hidx
    have hidx' : idx < w.length := by
      rw [hwlen]
      exact Finset.mem_range.mp hidx
    have h1 : ((w.map (fun x => Real.exp (10 * x) /
        ((w.map (fun y => Real.exp (10 * y))).sum))).getD idx 0) =
        Real.exp (10 * w.getD idx 0) /
          ((w.map (fun y => Real.exp (10 * y))).sum) :=
      getD_map_lt _ w idx hidx' 0 0
    have h2 : g.perms.getD idx (NMat.idMat 0) =
        from_qubit_location g.size (g.locations.getD idx []) := by
      rw [hperm]
      apply getD_map_lt
      rw [← hwlen]
      exact hidx'
    rw [h1, h2, listSum_map_eq_finsetSum w (fun y => Real.exp (10 * y)), hwlen]
  · -- the returned value
    rw [VariableLocationGate.get_unitary, if_pos hlen]
    rfl

/-- Witness for C2 at the example wrapper with parameters `[0, 0]`. -/
theorem vlg_get_unitary_c2_witness :
    ∃ P : NMat,
      VariableLocationGate.get_unitary exampleVLG [0, 0] =
        Except.ok (closest_to ((P.mul (NMat.kron
          (exampleVLG.gate.get_unitary (([0, 0] : List ℝ).take
            exampleVLG.gate.num_params)) exampleVLG.I)).mul P.transpose)) := by
  obtain ⟨P, _, _, _, h4⟩ := vlg_get_unitary_c2 exampleVLG [0, 0] rfl rfl
    (by simp [exampleVLG]) rfl
  exact ⟨P, h4⟩

/-- The softmax-weighted permutation combination `P` at the counterexample
input: the example wrapper evaluated at parameters `[0, 0]`. -/
noncomputable def cexP : NMat :=
  NMat.sumList
    (((softmax ((VariableLocationGate.split_params exampleVLG [0, 0]).2) 10).zip
      exampleVLG.perms).map (fun p => NMat.smulR p.1 p.2))

/-- The padded subgate unitary `G ⊗ I_pad` at the counterexample input. -/
noncomputable def cexK : NMat :=
  NMat.kron (exampleVLG.gate.get_unitary
    ((VariableLocationGate.split_params exampleVLG [0, 0]).1)) exampleVLG.I

/-- The raw product `P · (G ⊗ I_pad) · Pᵀ` at the counterexample input. -/
noncomputable def cexM : NMat := cexP.mul (cexK.mul cexP.transpose)

theorem cexP_entry (i j : Nat) :
    cexP.entry i j =
      ((1/2 : ℝ) : ℂ) * (from_qubit_location 2 [0]).entry i j +
      (((1/2 : ℝ) : ℂ) * (from_qubit_location 2 [1]).entry i j + 0) := by
  have hsoft : softmax ((VariableLocationGate.split_params exampleVLG
      [0, 0]).2) 10 = [1/2, 1/2] := by
    show softmax [(0 : ℝ), 0] 10 = [1/2, 1/2]
    simp only [softmax, List.map_cons, List.map_nil, List.sum_cons,
      List.sum_nil, mul_zero, Real.exp_zero]
    norm_num
  rw [cexP, hsoft]
  rfl

theorem cex_permBits0 (x : Nat) : permBits 2 [0] x = x % 2 + x / 2 % 2 * 2 := by
  have hq : qubitOrder 2 [0] = [0, 1] := by decide
  rw [permBits, hq]
  simp [Finset.sum_range_succ, bitAt]

theorem cex_permBits1 (x : Nat) : permBits 2 [1] x = x / 2 % 2 + x % 2 * 2 := by
  have hq : qubitOrder 2 [1] = [1, 0] := by decide
  rw [permBits, hq]
  simp [Finset.sum_range_succ, bitAt]

theorem cexM_entry (i j : Nat) :
    cexM.entry i j =
      ∑ t ∈ Finset.range 4, cexP.entry i t *
        ∑ u ∈ Finset.range 4, cexK.entry t u * cexP.entry j u := rfl

theorem cexK_entry (t u : Nat) :
    cexK.entry t u =
      (if t / 2 = u / 2 ∧ t / 2 < 2 then 1 else 0) *
      (if t % 2 = u % 2 ∧ t % 2 < 2 then 1 else 0) := rfl

theorem cexM_row1 :
    cexM.entry 1 0 = 0 ∧ cexM.entry 1 1 = 1/2 ∧
    cexM.entry 1 2 = 1/2 ∧ cexM.entry 1 3 = 0 := by
  refine ⟨?_, ?_, ?_, ?_⟩ <;>
    · rw [cexM_entry]
      simp only [Finset.sum_range_succ, Finset.sum_range_zero, cexP_entry,
        cexK_entry, from_qubit_location, cex_permBits0, cex_permBits1]
      norm_num

/-- C10 counterexample: at parameters `[0, 0]` the example wrapper's raw
product `P · (G ⊗ I_pad) · Pᵀ` is a strict convex combination of two
distinct permutations and is not unitary (its row 1 has squared norm 1/2),
so the closest-unitary projection applied by `get_unitary` changes it and
the first component of `get_unitary_and_grad` differs from `get_unitary`. -/
theorem vlg_unitary_projection_c10_counterexample :
    VariableLocationGate.get_unitary exampleVLG [0, 0] ≠
      Except.map Prod.fst
        (VariableLocationGate.get_unitary_and_grad exampleVLG [0, 0]) := by
  have hLHS : VariableLocationGate.get_unitary exampleVLG [0, 0] =
      Except.ok (closest_to ((cexP.mul cexK).mul cexP.transpose)) := by
    rw [VariableLocationGate.get_unitary,
      if_pos (show ([0, 0] : List ℝ).length = exampleVLG.num_params from rfl)]
    rfl
  have hRHS : Except.map Prod.fst
      (VariableLocationGate.get_unitary_and_grad exampleVLG [0, 0]) =
      Except.ok cexM := by
    rw [VariableLocationGate.get_unitary_and_grad,
      if_pos (show ([0, 0] : List ℝ).length = exampleVLG.num_params from rfl)]
    rfl
  have hassoc : (cexP.mul cexK).mul cexP.transpose = cexM :=
    NMat.matmul_assoc cexP cexK cexP.transpose
  have hstar : star ((1/2 : ℂ)) = 1/2 := by
    simp [Complex.star_def, map_div₀]
  have hnotu : ¬ NMat.IsUnitaryNMat cexM := by
    rintro ⟨hrc, hMMH, hMHM⟩
    have h11 := congrArg (fun X => X.entry 1 1) hMMH
    simp only at h11
    have hL : (cexM.mul cexM.conjTranspose).entry 1 1 =
        ∑ m ∈ Finset.range 4, cexM.entry 1 m * star (cexM.entry 1 m) := rfl
    have hR : (NMat.idMat cexM.rows).entry 1 1 = 1 := by
      show (NMat.idMat 4).entry 1 1 = 1
      norm_num [NMat.idMat]
    rw [hL, hR] at h11
    obtain ⟨h0, h1, h2, h3⟩ := cexM_row1
    rw [Finset.sum_range_succ, Finset.sum_range_succ, Finset.sum_range_succ,
      Finset.sum_range_succ, Finset.sum_range_zero, h0, h1, h2, h3, hstar] at h11
    norm_num at h11
  rw [hLHS, hRHS, hassoc, closest_to_of_not_unitary cexM hnotu]
  intro hc
  injection hc with hc
  have h11 := congrArg (fun X => X.entry 1 1) hc
  simp only at h11
  have hL : (NMat.idMat cexM.rows).entry 1 1 = 1 := by
    show (NMat.idMat 4).entry 1 1 = 1
    norm_num [NMat.idMat]
  rw [hL, cexM_row1.2.1] at h11
  norm_num at h11
